import Mathlib

set_option maxRecDepth 8000

namespace HymnTool

/-! # Model of the Python string primitives used by the hymn scripts

`isPySpace` models the characters matched by `\s` (and stripped by `str.strip`)
for the ASCII range that occurs in the hymnal documents.  `pyStripL`/`pyStrip`
model `str.strip()`, `splitlinesGo` models `str.splitlines()` (including the
`\r\n`, `\v` and `\f` line boundaries Python recognises), and `joinSep` models
`sep.join(list)`. -/

def isPySpace (c : Char) : Bool :=
  c == ' ' || c == '\t' || c == '\n' || c == '\r' || c == '\x0b' || c == '\x0c'

def pyStripL (l : List Char) : List Char :=
  ((l.dropWhile isPySpace).reverse.dropWhile isPySpace).reverse

def pyStrip (s : String) : String := String.mk (pyStripL s.data)

/-- `len(line) - len(line.lstrip())`: width of the leading whitespace run. -/
def indentWidth (s : String) : Nat := (s.data.takeWhile isPySpace).length

def isLineSep (c : Char) : Bool :=
  c == '\n' || c == '\r' || c == '\x0b' || c == '\x0c' ||
  c == '\x1c' || c == '\x1d' || c == '\x1e' || c == '\u0085' ||
  c == '\u2028' || c == '\u2029'

def splitlinesGo : List Char → List Char → List (List Char)
  | [], acc => if acc.isEmpty then [] else [acc.reverse]
  | '\r' :: '\n' :: rest, acc => acc.reverse :: splitlinesGo rest []
  | c :: rest, acc =>
    if isLineSep c then acc.reverse :: splitlinesGo rest []
    else splitlinesGo rest (c :: acc)

def splitlinesS (s : String) : List String := (splitlinesGo s.data []).map String.mk

/-- Value of a run of decimal digits, as computed by Python `int`. -/
def digitsVal (ds : List Char) : Nat :=
  ds.foldl (fun a c => a * 10 + (c.toNat - 48)) 0

/-- `sep.join(parts)` (Python semantics: separator between elements only). -/
def joinSep (sep : String) : List String → String
  | [] => ""
  | [a] => a
  | a :: b :: rest => a ++ sep ++ joinSep sep (b :: rest)

/-! # Models of the regular expressions of `parse_hymn_block`

`verseMatch` models `re.match(r"^(\d+)\s*\.?(.*)", stripped)`: it succeeds
exactly when the line starts with a digit, and returns the digit value and the
remainder after skipping whitespace and one optional dot.  `chorusMatch`
models `re.match(r"^(?:CORO|Coro)(?:\s*:)?\s*(.*)", stripped, re.IGNORECASE)`.
The character classes of each regex are disjoint, so the greedy matches below
are exact. -/

def verseMatch (s : List Char) : Option (Nat × List Char) :=
  match s with
  | [] => none
  | c :: _ =>
    if c.isDigit then
      let ds := s.takeWhile Char.isDigit
      let r1 := (s.dropWhile Char.isDigit).dropWhile isPySpace
      let r2 := match r1 with
        | '.' :: r => r
        | r => r
      some (digitsVal ds, r2)
    else none

def chorusMatch (s : List Char) : Option (List Char) :=
  match s with
  | c1 :: c2 :: c3 :: c4 :: rest =>
    if c1.toLower == 'c' && c2.toLower == 'o' && c3.toLower == 'r' && c4.toLower == 'o' then
      match rest.dropWhile isPySpace with
      | ':' :: r => some (r.dropWhile isPySpace)
      | r => some r
    else none
  | _ => none

/-- `re.match(r"^\d+\s*\.?", s)` succeeds iff `s` starts with a digit. -/
def digitStartB (s : String) : Bool :=
  match s.data with
  | c :: _ => c.isDigit
  | [] => false

/-- `re.match(r"^(?:CORO|Coro)", s, re.IGNORECASE)`. -/
def coroStartB (s : String) : Bool :=
  match s.data with
  | c1 :: c2 :: c3 :: c4 :: _ =>
    c1.toLower == 'c' && c2.toLower == 'o' && c3.toLower == 'r' && c4.toLower == 'o'
  | _ => false

/-! # Header extraction

`hinoHeadAt` models a match of `Hino\s+(\d+)\s+[–-]\s+(.+)` (with
`re.IGNORECASE`) anchored at the start of the given character list;
`hinoSearch` models `re.search`, i.e. the leftmost such match.  When the text
after the dash consists of whitespace only, backtracking leaves a single
whitespace character for the greedy `(.+)` group, which is what the
`w.length ≥ 2` branch reproduces. -/

def hinoHeadAt (s : List Char) : Option (Nat × List Char) :=
  match s with
  | c1 :: c2 :: c3 :: c4 :: r =>
    if c1.toLower == 'h' && c2.toLower == 'i' && c3.toLower == 'n' && c4.toLower == 'o' then
      let w1 := r.takeWhile isPySpace
      let r1 := r.dropWhile isPySpace
      let d := r1.takeWhile Char.isDigit
      let r2 := r1.dropWhile Char.isDigit
      let w2 := r2.takeWhile isPySpace
      let r3 := r2.dropWhile isPySpace
      if w1.isEmpty || d.isEmpty || w2.isEmpty then none
      else
        match r3 with
        | dash :: r4 =>
          if dash == '–' || dash == '-' then
            let w3 := r4.takeWhile isPySpace
            let r5 := r4.dropWhile isPySpace
            if w3.isEmpty then none
            else if r5.isEmpty then
              match w3.reverse with
              | lc :: _ => if w3.length ≥ 2 then some (digitsVal d, [lc]) else none
              | [] => none
            else some (digitsVal d, r5)
          else none
        | [] => none
    else none
  | _ => none

def hinoSearch : List Char → Option (Nat × List Char)
  | [] => none
  | c :: rest =>
    match hinoHeadAt (c :: rest) with
    | some x => some x
    | none => hinoSearch rest

/-- Header scan of `generate.py`: first line whose stripped text contains a
`Hino <n> – <title>` match; returns (line index, number, stripped title). -/
def findHeaderG : List String → Nat → Option (Nat × Nat × String)
  | [], _ => none
  | l :: rest, i =>
    match hinoSearch (pyStrip l).data with
    | some (n, t) => some (i, n, pyStrip (String.mk t))
    | none => findHeaderG rest (i + 1)

/-- Header match of `generate-ccb-casteliano.py`:
`re.match(r"^\f?(\d+)\s+(.+)", line)` on the raw (unstripped) line. -/
def headerMatchC (line : String) : Option (Nat × List Char) :=
  let l := match line.data with
    | '\x0c' :: r => r
    | r => r
  let d := l.takeWhile Char.isDigit
  let r1 := l.dropWhile Char.isDigit
  if d.isEmpty then none
  else
    let w := r1.takeWhile isPySpace
    let r2 := r1.dropWhile isPySpace
    if w.isEmpty then none
    else if r2.isEmpty then
      match w.reverse with
      | lc :: _ => if w.length ≥ 2 then some (digitsVal d, [lc]) else none
      | [] => none
    else some (digitsVal d, r2)

def findHeaderC : List String → Nat → Option (Nat × Nat × String)
  | [], _ => none
  | l :: rest, i =>
    match headerMatchC l with
    | some (n, t) => some (i, n, pyStrip (String.mk t))
    | none => findHeaderC rest (i + 1)

/-- Title continuation merge, identical in both text parsers: if the line after
the header is non-empty, does not start with a digit or chorus keyword, and the
line after it is blank, append its stripped text to the title and advance the
body start index past it. -/
def contMerge (lines : List String) (headerIdx : Nat) (title : String) : String × Nat :=
  let b := headerIdx + 1
  match lines.get? b with
  | none => (title, b)
  | some l =>
    let next := pyStrip l
    if next ≠ "" ∧ digitStartB next = false ∧ coroStartB next = false then
      match lines.get? (b + 1) with
      | some l2 => if pyStrip l2 = "" then (title ++ " " ++ next, b + 1) else (title, b)
      | none => (title, b)
    else (title, b)

/-! # The line-classifier state machine -/

structure PState where
  parts : List String
  label : String
  buffer : List String
  nextVerse : Nat
  expecting : Bool
deriving DecidableEq, Repr

def initState : PState := ⟨[], "", [], 1, false⟩

/-- `flush_buffer()`: emit `[label]\n` + joined buffer when both label and
buffer are non-empty; clear the buffer in every case. -/
def flushS (s : PState) : PState :=
  if s.label ≠ "" ∧ s.buffer ≠ [] then
    { s with parts := s.parts ++ ["[" ++ s.label ++ "]\n" ++ joinSep "\n" s.buffer],
             buffer := [] }
  else { s with buffer := [] }

/-- One line of the `generate.py` classifier loop. -/
def stepG (s : PState) (line : String) : PState :=
  let stripped := pyStrip line
  if stripped = "" then
    if s.buffer ≠ [] then { s with expecting := true } else s
  else
    match verseMatch stripped.data with
    | some (n, rest) =>
      let content := pyStrip (String.mk rest)
      { flushS s with
          label := "Verse " ++ toString n,
          nextVerse := n + 1,
          buffer := if content ≠ "" then [content] else [],
          expecting := false }
    | none =>
      match chorusMatch stripped.data with
      | some rest =>
        let content := pyStrip (String.mk rest)
        { flushS s with
            label := "Chorus",
            buffer := if content ≠ "" then [content] else [],
            expecting := false }
      | none =>
        if s.expecting then
          { flushS s with
              label := "Verse " ++ toString s.nextVerse,
              nextVerse := s.nextVerse + 1,
              buffer := [stripped],
              expecting := false }
        else if s.label ≠ "" then
          { s with buffer := s.buffer ++ [stripped] }
        else
          { s with label := "Verse 1", nextVerse := 2, buffer := [stripped],
                   expecting := false }

/-- One line of the `generate-ccb-casteliano.py` classifier loop (adds the
indentation-based implicit chorus and the chorus-to-verse rollover branch). -/
def stepC (s : PState) (line : String) : PState :=
  let stripped := pyStrip line
  if stripped = "" then
    if s.buffer ≠ [] then { s with expecting := true } else s
  else
    match verseMatch stripped.data with
    | some (n, rest) =>
      let content := pyStrip (String.mk rest)
      { flushS s with
          label := "Verse " ++ toString n,
          nextVerse := n + 1,
          buffer := if content ≠ "" then [content] else [],
          expecting := false }
    | none =>
      match chorusMatch stripped.data with
      | some rest =>
        let content := pyStrip (String.mk rest)
        { flushS s with
            label := "Chorus",
            buffer := if content ≠ "" then [content] else [],
            expecting := false }
      | none =>
        if indentWidth line ≥ 5 then
          if s.label ≠ "Chorus" then
            { flushS s with label := "Chorus", buffer := [stripped], expecting := false }
          else
            { s with buffer := s.buffer ++ [stripped], expecting := false }
        else if s.expecting then
          { flushS s with
              label := "Verse " ++ toString s.nextVerse,
              nextVerse := s.nextVerse + 1,
              buffer := [stripped],
              expecting := false }
        else if s.label = "Chorus" then
          { flushS s with
              label := "Verse " ++ toString s.nextVerse,
              nextVerse := s.nextVerse + 1,
              buffer := [stripped] }
        else if s.label ≠ "" then
          { s with buffer := s.buffer ++ [stripped] }
        else
          { s with label := "Verse 1", nextVerse := 2, buffer := [stripped],
                   expecting := false }

structure HymnRecord where
  no : Nat
  title : String
  lyrics : String
deriving DecidableEq, Repr

/-! # Title post-processing of the casteliano parser

`rpGo` models `re.sub(r"\s*\(.*?\)\s*", "", title)` by leftmost scanning: at
each position, try to match an optional whitespace run, an opening parenthesis,
lazily everything up to the first closing parenthesis, and a trailing
whitespace run; on a match, drop it and continue after it.  The fuel argument
(initially the length of the list) only makes the recursion structural; each
successful match consumes at least one character. -/

def afterFirstClose : List Char → Option (List Char)
  | [] => none
  | c :: r => if c = ')' then some r else afterFirstClose r

def tryParenMatch (l : List Char) : Option (List Char) :=
  match l.dropWhile isPySpace with
  | '(' :: r =>
    match afterFirstClose r with
    | some r2 => some (r2.dropWhile isPySpace)
    | none => none
  | _ => none

def rpGo : Nat → List Char → List Char
  | 0, l => l
  | _ + 1, [] => []
  | fuel + 1, c :: rest =>
    match tryParenMatch (c :: rest) with
    | some rest2 => rpGo fuel rest2
    | none => c :: rpGo fuel rest

def removeParens (l : List Char) : List Char := rpGo l.length l

/-- `re.sub(r"\s+", " ", title)`: each maximal whitespace run becomes one
space.  The boolean flag records whether the previous character was part of a
whitespace run. -/
def collapseWsAux : Bool → List Char → List Char
  | _, [] => []
  | inWs, c :: rest =>
    if isPySpace c then
      if inWs then collapseWsAux true rest
      else ' ' :: collapseWsAux true rest
    else c :: collapseWsAux false rest

def collapseWs (l : List Char) : List Char := collapseWsAux false l

/-- `title.rstrip(" –")`. -/
def rstripSD (l : List Char) : List Char :=
  (l.reverse.dropWhile (fun c => c == ' ' || c == '–')).reverse

def postTitle (t : String) : String :=
  String.mk (collapseWs (rstripSD (pyStripL (removeParens t.data))))

/-! # The two block parsers -/

/-- Final classifier state of `generate.py` on the body lines of a block
(fold of the per-line step from the fresh initial state, then the final
flush). -/
def stateG (block : String) (i : Nat) (t0 : String) : PState :=
  flushS (((splitlinesS block).drop
    (contMerge (splitlinesS block) i t0).2).foldl stepG initState)

def stateC (block : String) (i : Nat) (t0 : String) : PState :=
  flushS (((splitlinesS block).drop
    (contMerge (splitlinesS block) i t0).2).foldl stepC initState)

/-- `parse_hymn_block` of `generate.py`. -/
def parseG (block : String) : Option HymnRecord :=
  match findHeaderG (splitlinesS block) 0 with
  | none => none
  | some (i, n, title0) =>
    some { no := n
         , title := (contMerge (splitlinesS block) i title0).1
         , lyrics := joinSep "\n\n" (stateG block i title0).parts }

/-- `parse_hymn_block` of `generate-ccb-casteliano.py`. -/
def parseC (block : String) : Option HymnRecord :=
  match findHeaderC (splitlinesS block) 0 with
  | none => none
  | some (i, n, title0) =>
    if (stateC block i title0).parts = [] then none
    else
      some { no := n
           , title := postTitle (contMerge (splitlinesS block) i title0).1
           , lyrics := joinSep "\n\n" (stateC block i title0).parts }

/-! # The document splitter

`splitAux` models `re.split` with a zero-width lookahead pattern: the document
is cut at every position where the boundary predicate holds; the predicate
sees the previous character (for the `^` anchor under `re.MULTILINE`) and the
remaining suffix. -/

def splitAux (B : Option Char → List Char → Bool) :
    List Char → Option Char → List Char → List (List Char)
  | [], _, acc => [acc.reverse]
  | c :: rest, prev, acc =>
    if B prev (c :: rest) then acc.reverse :: splitAux B rest (some c) [c]
    else splitAux B rest (some c) (c :: acc)

def splitDoc (B : Option Char → List Char → Bool) (content : List Char) :
    List (List Char) :=
  splitAux B content none []

/-- Lookahead of `generate.py`: `(?=\f?Hino\s+\d+\s+[–-])`, no anchor. -/
def lookaheadG (s : List Char) : Bool :=
  let s1 := match s with
    | '\x0c' :: r => r
    | r => r
  match s1 with
  | c1 :: c2 :: c3 :: c4 :: r =>
    if c1 == 'H' && c2 == 'i' && c3 == 'n' && c4 == 'o' then
      let r2 := (r.dropWhile isPySpace).dropWhile Char.isDigit
      !(r.takeWhile isPySpace).isEmpty &&
      !((r.dropWhile isPySpace).takeWhile Char.isDigit).isEmpty &&
      !(r2.takeWhile isPySpace).isEmpty &&
        (match r2.dropWhile isPySpace with
         | dash :: _ => dash == '–' || dash == '-'
         | [] => false)
    else false
  | _ => false

def boundaryG (_ : Option Char) (s : List Char) : Bool := lookaheadG s

/-- Lookahead of `generate-ccb-casteliano.py`: `(?=^\f?\d+\s+)` under
`re.MULTILINE`; the `^` anchor is the previous-character test in
`boundaryC`. -/
def lookaheadC (s : List Char) : Bool :=
  let s1 := match s with
    | '\x0c' :: r => r
    | r => r
  !(s1.takeWhile Char.isDigit).isEmpty &&
    (match s1.dropWhile Char.isDigit with
     | c :: _ => isPySpace c
     | [] => false)

def boundaryC (prev : Option Char) (s : List Char) : Bool :=
  (match prev with
   | none => true
   | some c => c == '\n') && lookaheadC s

/-! # The HTML extractor loop of `fetch-cantor-cristao.py`

HTML unescaping and BeautifulSoup text extraction are external collaborators;
they are abstracted as the two functions of a `CCConfig`.  Everything else of
the `extract_hymn_data` lyrics loop (the paragraph split, the truncation at the
closing tag, the metadata filters and the verse labelling) is modelled
directly. -/

structure CCConfig where
  getText : String → String
  getLines : String → List String

def leadMatch : List Char → List Char → Option (List Char)
  | [], l => some l
  | _ :: _, [] => none
  | s :: ss, c :: cs => if s == c then leadMatch ss cs else none

def startsL (p l : List Char) : Bool := (leadMatch p l).isSome

def splitOnGo (sep : List Char) : Nat → List Char → List Char → List (List Char)
  | 0, acc, l => [acc.reverse ++ l]
  | fuel + 1, acc, l =>
    match l with
    | [] => [acc.reverse]
    | c :: rest =>
      match leadMatch sep l with
      | some rem => acc.reverse :: splitOnGo sep fuel [] rem
      | none => splitOnGo sep fuel (c :: acc) rest

/-- Python `s.split(sep)` for a non-empty separator. -/
def splitOnL (sep l : List Char) : List (List Char) :=
  match sep with
  | [] => [l]
  | _ :: _ => splitOnGo sep l.length [] l

/-- `part[:part.find("&lt;/p&gt;")]` when the closing tag is present. -/
def truncAtClose (part : String) : String :=
  match splitOnL "&lt;/p&gt;".data part.data with
  | h :: _ => String.mk h
  | [] => part

def containsSub (needle hay : List Char) : Bool :=
  match hay with
  | [] => needle.isEmpty
  | _ :: rest => startsL needle hay || containsSub needle rest

def skipKeywords : List String :=
  ["Slides:", "Baixar Apresentação", "Iniciar SlideShow", "Amostra sonora",
   "Kits de voz", "Vídeos:", "Obs.:", "Cifragem", "Partituras",
   "Arquivos para edição", "Tom original", "Soprano:", "Contralto:",
   "Tenor:", "Baixo:", "MIDI(", "MP3(", "jsaction"]

def hasSkipKeyword (text : String) : Bool :=
  skipKeywords.any (fun k => containsSub k.data text.data)

def ccLoop (cfg : CCConfig) : List String → Nat → List String
  | [], _ => []
  | part :: rest, counter =>
    let pc := truncAtClose part
    let text := pyStrip (cfg.getText pc)
    if text = "" then ccLoop cfg rest counter
    else if hasSkipKeyword text then ccLoop cfg rest counter
    else if startsL "Letra:".data text.data || startsL "Música:".data text.data then
      ccLoop cfg rest counter
    else
      let lines := ((cfg.getLines pc).map pyStrip).filter (fun l => l ≠ "")
      if lines = [] then ccLoop cfg rest counter
      else ("[Verse " ++ toString counter ++ "]\n" ++ joinSep "\n" lines) ::
        ccLoop cfg rest (counter + 1)

/-- The ordered list of labelled lyric blocks produced by
`extract_hymn_data`: the parts after splitting on the escaped paragraph
marker, skipping the part before the first marker, with the verse counter
starting at 1. -/
def ccBlocks (cfg : CCConfig) (content : String) : List String :=
  ccLoop cfg (((splitOnL "&lt;p&gt;".data content.data).map String.mk).drop 1) 1

/-! # Derived predicates used by the theorems -/

/-- The digit token of a `generate.py` header match on this line, if any, is
not the literal zero. -/
def headerNumOkG (l : String) : Bool :=
  match hinoSearch (pyStrip l).data with
  | some (n, _) => n != 0
  | none => true

def headerNumOkC (l : String) : Bool :=
  match headerMatchC l with
  | some (n, _) => n != 0
  | none => true

/-- No closing parenthesis occurs after the first opening parenthesis, i.e.
the text contains no `( … )` annotation. -/
def parenClean (l : List Char) : Bool :=
  match l.dropWhile (fun c => !(c == '(')) with
  | [] => true
  | _ :: r => !(r.contains ')')

/-- Every whitespace character is a single space not followed by another
whitespace character. -/
def wsCollapsed : List Char → Bool
  | [] => true
  | [c] => !isPySpace c || c == ' '
  | c1 :: c2 :: rest =>
    (!isPySpace c1 || (c1 == ' ' && !isPySpace c2)) && wsCollapsed (c2 :: rest)

/-! # Helper lemmas -/

theorem splitAux_flatten (B : Option Char → List Char → Bool) :
    ∀ (l : List Char) (prev : Option Char) (acc : List Char),
      (splitAux B l prev acc).flatten = acc.reverse ++ l := by
  intro l
  induction l with
  | nil => intro prev acc; simp [splitAux]
  | cons c rest ih =>
    intro prev acc
    simp only [splitAux]
    by_cases h : B prev (c :: rest) = true
    · simp [h, ih]
    · simp [h, ih]

theorem flushS_nextVerse (s : PState) : (flushS s).nextVerse = s.nextVerse := by
  simp only [flushS]; split <;> rfl

theorem flushS_label (s : PState) : (flushS s).label = s.label := by
  simp only [flushS]; split <;> rfl

theorem splitAux_ne_nil (B : Option Char → List Char → Bool) :
    ∀ (l : List Char) (prev : Option Char) (acc : List Char),
      splitAux B l prev acc ≠ [] := by
  intro l
  induction l with
  | nil => intro prev acc; simp [splitAux]
  | cons c rest ih =>
    intro prev acc
    simp only [splitAux]
    split
    · simp
    · exact ih _ _

theorem claim3_aux (l : List Char) : ∀ (prev : Option Char) (acc : List Char),
    (∀ h t, acc = h :: t → prev = some h) →
    ∀ p ∈ (splitAux boundaryC l prev acc).dropLast, p = [] ∨ p.getLast? = some '\n' := by
  induction l with
  | nil => intro prev acc _; simp [splitAux]
  | cons c rest ih =>
    intro prev acc hinv p hp
    simp only [splitAux] at hp
    by_cases hB : boundaryC prev (c :: rest) = true
    · rw [if_pos hB] at hp
      have hne := splitAux_ne_nil boundaryC rest (some c) [c]
      rw [List.dropLast_cons_of_ne_nil hne] at hp
      rcases List.mem_cons.mp hp with hpe | hpm
      · subst hpe
        cases acc with
        | nil => exact Or.inl rfl
        | cons h t =>
          have hprev : prev = some h := hinv h t rfl
          subst hprev
          have hh : h = '\n' := by
            have hB' := hB
            simp [boundaryC] at hB'
            exact hB'.1
          subst hh
          right
          simp
      · exact ih (some c) [c] (by intro h t heq; cases heq; rfl) p hpm
    · rw [if_neg hB] at hp
      exact ih (some c) (c :: acc) (by intro h t heq; cases heq; rfl) p hp

/-! # Claims -/

/-- C4: for every document, concatenating in order all pieces produced by the
splitter (which is a zero-width lookahead split, so the pieces carry all
inter-block whitespace) reconstructs the document exactly, for the boundary
pattern of `generate.py` and for the one of `generate-ccb-casteliano.py`. -/
theorem claim4 (content : List Char) :
    (splitDoc boundaryG content).flatten = content ∧
    (splitDoc boundaryC content).flatten = content := by
  constructor
  · simpa using splitAux_flatten boundaryG content none []
  · simpa using splitAux_flatten boundaryC content none []

/-- C1 (counterexample): on the spec's example block, the casteliano block
parser does not return the record demanded by the claim: the unindented line
after the bare `Coro` marker is not kept in a `[Chorus]` segment. -/
theorem claim1_cex :
    parseC "5 Título Bonito\n\n1. Primeira linha\nSegunda linha\n\nCoro\nLinha do coro\n\n2. Outra estrofe" ≠
      some { no := 5, title := "Título Bonito",
             lyrics := "[Verse 1]\nPrimeira linha\nSegunda linha\n\n[Chorus]\nLinha do coro\n\n[Verse 2]\nOutra estrofe" } := by
  decide

/-- C1 (amended): on the spec's example block the casteliano block parser
returns number 5 and title `Título Bonito`, but the line after the bare
`Coro` marker is relabeled as a new implicit verse (the chorus buffer being
empty is flushed away), so the lyrics contain `[Verse 2]` twice and no
`[Chorus]` segment. -/
theorem claim1_amended :
    parseC "5 Título Bonito\n\n1. Primeira linha\nSegunda linha\n\nCoro\nLinha do coro\n\n2. Outra estrofe" =
      some { no := 5, title := "Título Bonito",
             lyrics := "[Verse 1]\nPrimeira linha\nSegunda linha\n\n[Verse 2]\nLinha do coro\n\n[Verse 2]\nOutra estrofe" } := by
  decide

/-- C2 (counterexample): in the casteliano classifier a plain unindented line
processed while the label is `Chorus` starts a new implicit verse even though
no boundary is pending: after `Coro: Glória a Deus` the two `nas alturas`
lines are not both appended to the chorus segment. -/
theorem claim2_cex :
    parseC "7 T\n\nCoro: Glória a Deus\nnas alturas\nnas alturas" =
      some { no := 7, title := "T",
             lyrics := "[Chorus]\nGlória a Deus\n\n[Verse 1]\nnas alturas\nnas alturas" } ∧
    "[Chorus]\nGlória a Deus\n\n[Verse 1]\nnas alturas\nnas alturas" ≠
      "[Chorus]\nGlória a Deus\nnas alturas\nnas alturas" := by
  decide

/-- C3 (counterexample): the `generate.py` boundary lookahead is unanchored:
on the document `xx Hino 1 – A` it creates a block boundary in the middle of
the only line (the piece before the cut is non-empty and does not end with a
newline). -/
theorem claim3_cex :
    splitDoc boundaryG "xx Hino 1 – A".data = ["xx ".data, "Hino 1 – A".data] ∧
    "xx ".data ≠ [] ∧ "xx ".data.getLast? ≠ some '\n' := by
  decide

/-- C5 (counterexample): the `generate.py` block parser has no empty-segment
check: a block consisting of a header line only is not discarded, and a
record with empty lyrics is emitted. -/
theorem claim5_cex :
    parseG "Hino 9 – T" = some { no := 9, title := "T", lyrics := "" } := by
  decide

/-- C6 (counterexample): the next-verse-number counter decreases during a
run: after `3. a`, blank, `b` it is 5, and after two further lines blank,
`1. c` it is 2; on a whole block the labels `Verse 4` and then `Verse 1`,
`Verse 2` appear in this order. -/
theorem claim6_cex :
    (List.foldl stepG initState ["3. a", "", "b"]).nextVerse = 5 ∧
    (List.foldl stepG initState ["3. a", "", "b", "", "1. c"]).nextVerse = 2 ∧
    parseG "Hino 1 – T\n3. a\n\nb\n\n1. c\n\nd" =
      some { no := 1, title := "T",
             lyrics := "[Verse 3]\na\n\n[Verse 4]\nb\n\n[Verse 1]\nc\n\n[Verse 2]\nd" } := by
  decide

/-- C7 (counterexample): the `generate.py` parser does not post-process the
title: a parenthetical annotation and a double space inside the header title
survive into the emitted record. -/
theorem claim7_cex :
    parseG "Hino 7 – A  B (bis)\n\n1. x" =
      some { no := 7, title := "A  B (bis)", lyrics := "[Verse 1]\nx" } ∧
    parenClean "A  B (bis)".data = false ∧
    wsCollapsed "A  B (bis)".data = false := by
  decide

/-- C9 (counterexample): a header whose digit token is `0` yields an emitted
record with number 0, which is not a positive integer. -/
theorem claim9_cex :
    parseG "Hino 0 – T\n\n1. x" = some { no := 0, title := "T", lyrics := "[Verse 1]\nx" } ∧
    ¬ (0 : Nat) < 0 := by
  decide

/-- C3 (amended): the casteliano splitter's boundary pattern is anchored (the
`^` under `re.MULTILINE`), so every block boundary lies at the start of a line
of the document: each produced piece except the last either is empty or ends
with a newline.  The `generate.py` lookahead, in contrast, is unanchored and
can match mid-line (see the counterexample). -/
theorem claim3_amended :
    ∀ (content : List Char) (p : List Char),
      p ∈ (splitDoc boundaryC content).dropLast →
      p = [] ∨ p.getLast? = some '\n' := by
  intro content p hp
  exact claim3_aux content none [] (by intro h t heq; cases heq) p hp

/-- C3 witness: on a concrete two-hymn document, the middle piece produced by
the casteliano splitter ends with a newline. -/
theorem claim3_witness :
    "1 A\nx\n".data = [] ∨ ("1 A\nx\n".data).getLast? = some '\n' :=
  claim3_amended "1 A\nx\n2 B".data "1 A\nx\n".data (by decide)

/-- C6 (amended): the next-verse-number counter is local to every
`parse_hymn_block` call (the parser folds each block's own lines from
`initState`, so there is no cross-block state); within a block the
`generate.py` classifier never decreases the counter at a line that is not an
explicit verse marker — only an explicit verse marker can reset it (to the
marked number plus one, possibly smaller).  The hypothesis `label = "" →
nextVerse = 1` holds of `initState` and of every reachable state. -/
theorem claim6_amended :
    ∀ (s : PState) (line : String),
      (s.label = "" → s.nextVerse = 1) →
      verseMatch (pyStrip line).data = none →
      s.nextVerse ≤ (stepG s line).nextVerse := by
  intro s line hinv hv
  simp only [stepG]
  by_cases hb : pyStrip line = ""
  · rw [if_pos hb]
    by_cases hbuf : s.buffer ≠ [] <;> simp [hbuf]
  · rw [if_neg hb, hv]
    cases hc : chorusMatch (pyStrip line).data with
    | some rest => simp [flushS_nextVerse]
    | none =>
      by_cases he : s.expecting = true
      · simp [he, flushS_nextVerse]
      · simp only [he, Bool.false_ne_true, if_false]
        by_cases hl : s.label ≠ ""
        · simp [hl]
        · have : s.label = "" := by simpa using hl
          simp [hl, hinv this]

/-- C6 witness: the counter does not decrease at a plain line from the
initial state. -/
theorem claim6_witness :
    initState.nextVerse ≤ (stepG initState "abc").nextVerse :=
  claim6_amended initState "abc" (fun _ => rfl) (by decide)

/-- C2 (amended): in the `generate.py` classifier, a plain continuation line
(non-blank, no verse or chorus marker) seen while the label is `Chorus`
starts a new implicit verse when a blank-line boundary is pending and is
appended to the chorus buffer otherwise; the example `Coro: Glória a Deus`
followed twice by `nas alturas` yields a single `Chorus` segment with both
lines and the colon stripped.  In the casteliano classifier, however, a plain
line below the indentation threshold while the label is `Chorus` starts a new
implicit verse even with no boundary pending. -/
theorem claim2_amended :
    (∀ (s : PState) (line : String),
        pyStrip line ≠ "" →
        verseMatch (pyStrip line).data = none →
        chorusMatch (pyStrip line).data = none →
        s.label = "Chorus" →
        (s.expecting = true →
          stepG s line =
            { flushS s with
                label := "Verse " ++ toString s.nextVerse,
                nextVerse := s.nextVerse + 1,
                buffer := [pyStrip line],
                expecting := false }) ∧
        (s.expecting = false →
          stepG s line = { s with buffer := s.buffer ++ [pyStrip line] }) ∧
        (indentWidth line < 5 → s.expecting = false →
          stepC s line =
            { flushS s with
                label := "Verse " ++ toString s.nextVerse,
                nextVerse := s.nextVerse + 1,
                buffer := [pyStrip line] })) ∧
    parseG "Hino 2 – T\n\nCoro: Glória a Deus\nnas alturas\nnas alturas" =
      some { no := 2, title := "T",
             lyrics := "[Chorus]\nGlória a Deus\nnas alturas\nnas alturas" } := by
  constructor
  · intro s line h1 h2 h3 h4
    refine ⟨?_, ?_, ?_⟩
    · intro he
      simp only [stepG]
      rw [if_neg h1, h2, h3, if_pos he]
    · intro he
      simp only [stepG]
      rw [if_neg h1, h2, h3, if_neg (by simp [he])]
      have hl : s.label ≠ "" := by rw [h4]; decide
      rw [if_pos hl]
    · intro hind he
      simp only [stepC]
      rw [if_neg h1, h2, h3, if_neg (by omega), if_neg (by simp [he]), if_pos h4]
  · decide

/-- C2 witness: a plain line while the label is `Chorus` with no pending
boundary is appended to the chorus buffer. -/
theorem claim2_witness :
    stepG ⟨[], "Chorus", ["x"], 3, false⟩ "y" = ⟨[], "Chorus", ["x", "y"], 3, false⟩ :=
  ((claim2_amended.1 ⟨[], "Chorus", ["x"], 3, false⟩ "y"
      (by decide) (by decide) (by decide) rfl).2.1 rfl).trans (by decide)

/-- C8: in both text parsers, when the line after the header line is
non-empty, does not start with a digit or a chorus keyword, and is followed by
a blank line, its stripped text is appended to the title and the body start
index moves past it; on a concrete two-line-title block, `generate.py` merges
the continuation into the title and parses the following numbered line as
Verse 1. -/
theorem claim8 :
    (∀ (lines : List String) (i : Nat) (title l l2 : String),
        lines.get? (i + 1) = some l →
        pyStrip l ≠ "" →
        digitStartB (pyStrip l) = false →
        coroStartB (pyStrip l) = false →
        lines.get? (i + 2) = some l2 →
        pyStrip l2 = "" →
        contMerge lines i title = (title ++ " " ++ pyStrip l, i + 2)) ∧
    parseG "Hino 3 – Line One\nLine Two\n\n1 first verse line" =
      some { no := 3, title := "Line One Line Two",
             lyrics := "[Verse 1]\nfirst verse line" } := by
  constructor
  · intro lines i title l l2 h1 h2 h3 h4 h5 h6
    have h5' : lines.get? (i + 1 + 1) = some l2 := h5
    simp only [contMerge, h1]
    rw [if_pos ⟨h2, h3, h4⟩]
    simp only [h5']
    rw [if_pos h6]
  · decide

/-- C8 witness: a concrete continuation-line merge. -/
theorem claim8_witness :
    contMerge ["H", "cont", ""] 0 "T" = ("T" ++ " " ++ pyStrip "cont", 0 + 2) :=
  claim8.1 ["H", "cont", ""] 0 "T" "cont" ""
    rfl (by decide) (by decide) (by decide) rfl rfl

/-! # Inversion of the parsers and non-emptiness of emitted parts -/

theorem strDataAppend (a b : String) : (a ++ b).data = a.data ++ b.data := by
  cases a; cases b; rfl

theorem strEqEmptyIff (s : String) : s = "" ↔ s.data = [] := by
  constructor
  · intro h; rw [h]
  · intro h
    cases s with
    | mk d =>
      have hd : d = [] := h
      rw [hd]

theorem findHeaderG_mem :
    ∀ (lines : List String) (j i n : Nat) (t : String),
      findHeaderG lines j = some (i, n, t) →
      ∃ l ∈ lines, ∃ r0, hinoSearch (pyStrip l).data = some (n, r0) := by
  intro lines
  induction lines with
  | nil => intro j i n t h; simp [findHeaderG] at h
  | cons l rest ih =>
    intro j i n t h
    simp only [findHeaderG] at h
    cases hh : hinoSearch (pyStrip l).data with
    | some p =>
      obtain ⟨n0, r0⟩ := p
      simp only [hh] at h
      simp only [Option.some.injEq, Prod.mk.injEq] at h
      refine ⟨l, List.mem_cons_self l rest, r0, ?_⟩
      rw [hh, h.2.1]
    | none =>
      simp only [hh] at h
      obtain ⟨l', hl', hr⟩ := ih (j + 1) i n t h
      exact ⟨l', List.mem_cons_of_mem l hl', hr⟩

theorem findHeaderC_mem :
    ∀ (lines : List String) (j i n : Nat) (t : String),
      findHeaderC lines j = some (i, n, t) →
      ∃ l ∈ lines, ∃ r0, headerMatchC l = some (n, r0) := by
  intro lines
  induction lines with
  | nil => intro j i n t h; simp [findHeaderC] at h
  | cons l rest ih =>
    intro j i n t h
    simp only [findHeaderC] at h
    cases hh : headerMatchC l with
    | some p =>
      obtain ⟨n0, r0⟩ := p
      simp only [hh] at h
      simp only [Option.some.injEq, Prod.mk.injEq] at h
      refine ⟨l, List.mem_cons_self l rest, r0, ?_⟩
      rw [hh, h.2.1]
    | none =>
      simp only [hh] at h
      obtain ⟨l', hl', hr⟩ := ih (j + 1) i n t h
      exact ⟨l', List.mem_cons_of_mem l hl', hr⟩

theorem parseG_inv (block : String) (r : HymnRecord) (hp : parseG block = some r) :
    ∃ i n t0,
      findHeaderG (splitlinesS block) 0 = some (i, n, t0) ∧
      r.no = n ∧
      r.title = (contMerge (splitlinesS block) i t0).1 ∧
      r.lyrics = joinSep "\n\n" (stateG block i t0).parts := by
  simp only [parseG] at hp
  cases hf : findHeaderG (splitlinesS block) 0 with
  | none => rw [hf] at hp; simp at hp
  | some x =>
    obtain ⟨i, n, t0⟩ := x
    simp only [hf] at hp
    have hr := Option.some.inj hp
    exact ⟨i, n, t0, rfl, by rw [← hr], by rw [← hr], by rw [← hr]⟩

theorem parseC_inv (block : String) (r : HymnRecord) (hp : parseC block = some r) :
    ∃ i n t0,
      findHeaderC (splitlinesS block) 0 = some (i, n, t0) ∧
      r.no = n ∧
      r.title = postTitle (contMerge (splitlinesS block) i t0).1 ∧
      (stateC block i t0).parts ≠ [] ∧
      r.lyrics = joinSep "\n\n" (stateC block i t0).parts := by
  simp only [parseC] at hp
  cases hf : findHeaderC (splitlinesS block) 0 with
  | none => rw [hf] at hp; simp at hp
  | some x =>
    obtain ⟨i, n, t0⟩ := x
    simp only [hf] at hp
    by_cases hparts : (stateC block i t0).parts = []
    · rw [if_pos hparts] at hp; simp at hp
    · rw [if_neg hparts] at hp
      have hr := Option.some.inj hp
      exact ⟨i, n, t0, rfl, by rw [← hr], by rw [← hr], hparts, by rw [← hr]⟩

theorem flushS_parts_ne (s : PState) (h : ∀ p ∈ s.parts, p ≠ "") :
    ∀ p ∈ (flushS s).parts, p ≠ "" := by
  simp only [flushS]
  split
  · intro p hp
    rcases List.mem_append.mp hp with h1 | h2
    · exact h p h1
    · have hpe : p = "[" ++ s.label ++ "]\n" ++ joinSep "\n" s.buffer := by
        simpa using h2
      subst hpe
      intro hcontra
      have hd := congrArg String.data hcontra
      rw [strDataAppend, strDataAppend, strDataAppend] at hd
      simp at hd
  · exact h

theorem stepC_parts (s : PState) (line : String) :
    (stepC s line).parts = s.parts ∨ (stepC s line).parts = (flushS s).parts := by
  simp only [stepC]
  by_cases hb : pyStrip line = ""
  · rw [if_pos hb]
    by_cases hbuf : s.buffer ≠ [] <;> simp [hbuf]
  · rw [if_neg hb]
    cases verseMatch (pyStrip line).data with
    | some p => obtain ⟨n, rest⟩ := p; right; rfl
    | none =>
      cases chorusMatch (pyStrip line).data with
      | some rest => right; rfl
      | none =>
        by_cases hind : indentWidth line ≥ 5
        · rw [if_pos hind]
          by_cases hl : s.label ≠ "Chorus" <;> simp [hl]
        · rw [if_neg hind]
          by_cases he : s.expecting = true
          · simp [he]
          · simp only [eq_false_of_ne_true he, Bool.false_eq_true, if_false]
            by_cases hc : s.label = "Chorus"
            · simp [hc]
            · simp only [hc, if_false]
              by_cases hl : s.label ≠ "" <;> simp [hl]

theorem stepG_parts (s : PState) (line : String) :
    (stepG s line).parts = s.parts ∨ (stepG s line).parts = (flushS s).parts := by
  simp only [stepG]
  by_cases hb : pyStrip line = ""
  · rw [if_pos hb]
    by_cases hbuf : s.buffer ≠ [] <;> simp [hbuf]
  · rw [if_neg hb]
    cases verseMatch (pyStrip line).data with
    | some p => obtain ⟨n, rest⟩ := p; right; rfl
    | none =>
      cases chorusMatch (pyStrip line).data with
      | some rest => right; rfl
      | none =>
        by_cases he : s.expecting = true
        · simp [he]
        · simp only [eq_false_of_ne_true he, Bool.false_eq_true, if_false]
          by_cases hl : s.label ≠ "" <;> simp [hl]

theorem stepC_partsNE (s : PState) (line : String) (h : ∀ p ∈ s.parts, p ≠ "") :
    ∀ p ∈ (stepC s line).parts, p ≠ "" := by
  rcases stepC_parts s line with h1 | h1 <;> rw [h1]
  · exact h
  · exact flushS_parts_ne s h

theorem foldlC_partsNE (lines : List String) :
    ∀ (s : PState), (∀ p ∈ s.parts, p ≠ "") →
      ∀ p ∈ (lines.foldl stepC s).parts, p ≠ "" := by
  induction lines with
  | nil => intro s h; exact h
  | cons l rest ih => intro s h; exact ih (stepC s l) (stepC_partsNE s l h)

theorem joinSep_ne_empty (sep : String) (p : String) (rest : List String) (hp : p ≠ "") :
    joinSep sep (p :: rest) ≠ "" := by
  cases rest with
  | nil => simpa [joinSep] using hp
  | cons b bs =>
    simp only [joinSep]
    intro hcontra
    apply hp
    have hd := congrArg String.data hcontra
    rw [strDataAppend, strDataAppend] at hd
    simp at hd
    exact (strEqEmptyIff p).mpr hd.1

/-- C5 (amended): the casteliano block parser discards any block whose
segment list ends up empty (its records never carry empty lyrics); the
`generate.py` parser has no such check and emits records with empty lyrics
for body-less blocks (see the counterexample). -/
theorem claim5_amended :
    ∀ (block : String) (r : HymnRecord), parseC block = some r → r.lyrics ≠ "" := by
  intro block r hp
  obtain ⟨i, n, t0, hf, hno, ht, hparts, hlyr⟩ := parseC_inv block r hp
  rw [hlyr]
  have hne : ∀ p ∈ (stateC block i t0).parts, p ≠ "" := by
    apply flushS_parts_ne
    apply foldlC_partsNE
    intro p hp2
    simp [initState] at hp2
  cases hps : (stateC block i t0).parts with
  | nil => exact absurd hps hparts
  | cons p rest =>
    exact joinSep_ne_empty "\n\n" p rest (hne p (by rw [hps]; exact List.mem_cons_self p rest))

/-- C5 witness: a concrete casteliano block whose record has non-empty
lyrics. -/
theorem claim5_witness : (HymnRecord.mk 5 "T" "[Verse 1]\nx").lyrics ≠ "" :=
  claim5_amended "5 T\n\n1. x" ⟨5, "T", "[Verse 1]\nx"⟩ (by decide)

/-- C9 (amended): the number of every emitted record equals the value of the
digit token of the block's header line, hence it is a non-negative integer
and it is positive whenever no line of the block carries a header whose digit
token is the literal zero; positivity itself is not enforced by the code (see
the counterexample with header number 0). -/
theorem claim9_amended :
    (∀ (block : String) (r : HymnRecord),
        (splitlinesS block).all headerNumOkG = true →
        parseG block = some r → 0 < r.no) ∧
    (∀ (block : String) (r : HymnRecord),
        (splitlinesS block).all headerNumOkC = true →
        parseC block = some r → 0 < r.no) := by
  constructor
  · intro block r hall hp
    obtain ⟨i, n, t0, hf, hno, -, -⟩ := parseG_inv block r hp
    obtain ⟨l, hl, r0, hsearch⟩ := findHeaderG_mem (splitlinesS block) 0 i n t0 hf
    have hok : headerNumOkG l = true := List.all_eq_true.mp hall l hl
    rw [headerNumOkG, hsearch] at hok
    simp at hok
    rw [hno]
    omega
  · intro block r hall hp
    obtain ⟨i, n, t0, hf, hno, -, -, -⟩ := parseC_inv block r hp
    obtain ⟨l, hl, r0, hsearch⟩ := findHeaderC_mem (splitlinesS block) 0 i n t0 hf
    have hok : headerNumOkC l = true := List.all_eq_true.mp hall l hl
    rw [headerNumOkC, hsearch] at hok
    simp at hok
    rw [hno]
    omega

/-- C9 witness: a concrete block with a non-zero header number yields a
positive record number. -/
theorem claim9_witness : 0 < (HymnRecord.mk 3 "T" "[Verse 1]\nx").no :=
  claim9_amended.1 "Hino 3 – T\n\n1. x" ⟨3, "T", "[Verse 1]\nx"⟩ (by decide) (by decide)

/-! # Labels of the HTML extractor -/

theorem ccLoop_label (cfg : CCConfig) :
    ∀ (parts : List String) (c i : Nat) (b : String),
      (ccLoop cfg parts c).get? i = some b →
      ∃ body, b = "[Verse " ++ toString (c + i) ++ "]\n" ++ body := by
  intro parts
  induction parts with
  | nil => intro c i b h; simp [ccLoop] at h
  | cons part rest ih =>
    intro c i b h
    simp only [ccLoop] at h
    split at h
    · exact ih c i b h
    · split at h
      · exact ih c i b h
      · split at h
        · exact ih c i b h
        · split at h
          · exact ih c i b h
          · cases i with
            | zero =>
              simp only [List.get?] at h
              refine ⟨joinSep "\n"
                (((cfg.getLines (truncAtClose part)).map pyStrip).filter
                  (fun l => l ≠ "")), ?_⟩
              have hb := Option.some.inj h
              rw [← hb]
              rfl
            | succ i0 =>
              simp only [List.get?] at h
              obtain ⟨body, hb⟩ := ih (c + 1) i0 b h
              refine ⟨body, ?_⟩
              rw [hb, show c + 1 + i0 = c + (i0 + 1) by omega]

/-- C10: every lyric block produced by the HTML extractor loop of
`fetch-cantor-cristao.py` is labelled `Verse (i+1)` where `i` is its position,
for any behaviour of the abstracted HTML text extraction; in particular the
extractor never produces a `Chorus` segment. -/
theorem claim10 :
    ∀ (cfg : CCConfig) (content : String) (i : Nat) (b : String),
      (ccBlocks cfg content).get? i = some b →
      (∃ body, b = "[Verse " ++ toString (i + 1) ++ "]\n" ++ body) ∧
      ∀ body, b ≠ "[Chorus]\n" ++ body := by
  intro cfg content i b h
  obtain ⟨body, hb⟩ := ccLoop_label cfg _ 1 i b h
  have hb' : b = "[Verse " ++ toString (i + 1) ++ "]\n" ++ body := by
    rw [hb, show 1 + i = i + 1 by omega]
  constructor
  · exact ⟨body, hb'⟩
  · intro body2 heq
    have hd : ("[Verse " ++ toString (i + 1) ++ "]\n" ++ body).data =
        ("[Chorus]\n" ++ body2).data := by rw [← hb', heq]
    simp only [strDataAppend] at hd
    simp at hd

/-- C10 witness: a concrete one-paragraph page with the identity text
extractor yields a single block labelled `Verse 1`. -/
theorem claim10_witness :
    (∃ body, "[Verse 1]\nhello" =
        "[Verse " ++ toString (0 + 1) ++ "]\n" ++ body) ∧
    ∀ body, "[Verse 1]\nhello" ≠ "[Chorus]\n" ++ body :=
  claim10 ⟨fun s => s, fun s => [s]⟩ "&lt;p&gt;hello" 0 "[Verse 1]\nhello" (by decide)

/-! # Properties of the casteliano title post-processing -/

theorem parenClean_cons (c : Char) (l : List Char) :
    parenClean (c :: l) = if c = '(' then !(l.contains ')') else parenClean l := by
  by_cases hc : c = '('
  · subst hc
    simp [parenClean, List.dropWhile_cons]
  · simp [parenClean, List.dropWhile_cons, hc]

theorem notMemOfContainsFalse (l : List Char) (a : Char) (h : l.contains a = false) :
    a ∉ l := by
  intro hm
  have h2 : l.contains a = true := List.elem_eq_true_of_mem hm
  rw [h2] at h
  cases h

theorem containsFalseOfNotMem (l : List Char) (a : Char) (h : a ∉ l) :
    l.contains a = false := by
  cases hc : l.contains a
  · rfl
  · exact absurd (List.mem_of_elem_eq_true hc) h

theorem parenClean_of_not_contains : ∀ (l : List Char), ')' ∉ l → parenClean l = true := by
  intro l
  induction l with
  | nil => intro _; rfl
  | cons c rest ih =>
    intro h
    rw [parenClean_cons]
    by_cases hc : c = '('
    · rw [if_pos hc]
      have hnm : ')' ∉ rest := fun hm => h (List.mem_cons_of_mem c hm)
      simpa using hnm
    · rw [if_neg hc]
      exact ih (fun hm => h (List.mem_cons_of_mem c hm))

theorem parenClean_of_sublist :
    ∀ (l1 l2 : List Char), List.Sublist l1 l2 → parenClean l2 = true → parenClean l1 = true := by
  intro l1 l2 h
  induction h with
  | slnil => intro _; rfl
  | cons c h ih =>
    intro hc
    apply ih
    rw [parenClean_cons] at hc
    by_cases hcc : c = '('
    · rw [if_pos hcc] at hc
      simp only [Bool.not_eq_true'] at hc
      exact parenClean_of_not_contains _ (notMemOfContainsFalse _ _ hc)
    · rw [if_neg hcc] at hc
      exact hc
  | cons₂ c h ih =>
    intro hc
    rw [parenClean_cons] at hc ⊢
    by_cases hcc : c = '('
    · rw [if_pos hcc] at hc ⊢
      simp only [Bool.not_eq_true'] at hc ⊢
      exact containsFalseOfNotMem _ _
        (fun hm => notMemOfContainsFalse _ _ hc (h.subset hm))
    · rw [if_neg hcc] at hc ⊢
      exact ih hc

theorem afterFirstClose_length :
    ∀ (l r : List Char), afterFirstClose l = some r → r.length < l.length := by
  intro l
  induction l with
  | nil => intro r h; simp [afterFirstClose] at h
  | cons c rest ih =>
    intro r h
    simp only [afterFirstClose] at h
    by_cases hc : c = ')'
    · rw [if_pos hc] at h
      have := Option.some.inj h
      rw [← this]
      simp
    · rw [if_neg hc] at h
      have := ih r h
      simp
      omega

theorem afterFirstClose_sublist :
    ∀ (l r : List Char), afterFirstClose l = some r → List.Sublist r l := by
  intro l
  induction l with
  | nil => intro r h; simp [afterFirstClose] at h
  | cons c rest ih =>
    intro r h
    simp only [afterFirstClose] at h
    by_cases hc : c = ')'
    · rw [if_pos hc] at h
      rw [← Option.some.inj h]
      exact List.sublist_cons_self c rest
    · rw [if_neg hc] at h
      exact (ih r h).trans (List.sublist_cons_self c rest)

theorem afterFirstClose_none :
    ∀ (l : List Char), afterFirstClose l = none → ')' ∉ l := by
  intro l
  induction l with
  | nil => intro _; simp
  | cons c rest ih =>
    intro h
    simp only [afterFirstClose] at h
    by_cases hc : c = ')'
    · rw [if_pos hc] at h; cases h
    · rw [if_neg hc] at h
      simp only [List.mem_cons]
      rintro (hcc | hm)
      · exact hc hcc.symm
      · exact ih h hm

theorem tryParenMatch_length (l r : List Char) (h : tryParenMatch l = some r) :
    r.length < l.length := by
  unfold tryParenMatch at h
  split at h
  case h_1 r0 heq =>
    split at h
    case h_1 r2 heq2 =>
      have hr := Option.some.inj h
      have h1 : (r2.dropWhile isPySpace).length ≤ r2.length :=
        (List.dropWhile_sublist isPySpace).length_le
      have h2 : r2.length < r0.length := afterFirstClose_length r0 r2 heq2
      have h3 : ('(' :: r0).length ≤ l.length := by
        rw [← heq]
        exact (List.dropWhile_sublist isPySpace).length_le
      simp only [List.length_cons] at h3
      rw [← hr]
      omega
    case h_2 => cases h
  case h_2 => cases h

theorem tryParenMatch_sublist (l r : List Char) (h : tryParenMatch l = some r) :
    List.Sublist r l := by
  unfold tryParenMatch at h
  split at h
  case h_1 r0 heq =>
    split at h
    case h_1 r2 heq2 =>
      have hr := Option.some.inj h
      have h1 : List.Sublist (r2.dropWhile isPySpace) r2 := List.dropWhile_sublist isPySpace
      have h2 : List.Sublist r2 r0 := afterFirstClose_sublist r0 r2 heq2
      have h3 : List.Sublist ('(' :: r0) l := by
        rw [← heq]
        exact List.dropWhile_sublist isPySpace
      rw [← hr]
      exact ((h1.trans h2).trans (List.sublist_cons_self '(' r0)).trans h3
    case h_2 => cases h
  case h_2 => cases h

theorem rpGo_sublist : ∀ (fuel : Nat) (l : List Char), List.Sublist (rpGo fuel l) l := by
  intro fuel
  induction fuel with
  | zero => intro l; exact List.Sublist.refl _
  | succ f ih =>
    intro l
    cases l with
    | nil => simp [rpGo]
    | cons c rest =>
      simp only [rpGo]
      cases htm : tryParenMatch (c :: rest) with
      | some rest2 => exact (ih rest2).trans (tryParenMatch_sublist _ _ htm)
      | none => exact List.Sublist.cons₂ c (ih rest)

theorem rpGo_parenClean : ∀ (fuel : Nat) (l : List Char),
    l.length ≤ fuel → parenClean (rpGo fuel l) = true := by
  intro fuel
  induction fuel with
  | zero =>
    intro l hl
    have h0 : l = [] := List.length_eq_zero.mp (Nat.le_zero.mp hl)
    rw [h0]
    rfl
  | succ f ih =>
    intro l hl
    cases l with
    | nil => rfl
    | cons c rest =>
      simp only [rpGo]
      cases htm : tryParenMatch (c :: rest) with
      | some rest2 =>
        apply ih
        have := tryParenMatch_length _ _ htm
        simp only [List.length_cons] at this hl
        omega
      | none =>
        rw [parenClean_cons]
        by_cases hc : c = '('
        · rw [if_pos hc]
          subst hc
          have hunfold : tryParenMatch ('(' :: rest) =
              (match afterFirstClose rest with
               | some r2 => some (r2.dropWhile isPySpace)
               | none => none) := rfl
          have hafc : afterFirstClose rest = none := by
            cases hres : afterFirstClose rest with
            | none => rfl
            | some r2 =>
              rw [hunfold, hres] at htm
              cases htm
          have hnotmem : ')' ∉ rest := afterFirstClose_none rest hafc
          have hsub : List.Sublist (rpGo f rest) rest := rpGo_sublist f rest
          have hnm : ')' ∉ rpGo f rest := fun hm => hnotmem (hsub.subset hm)
          simpa using hnm
        · rw [if_neg hc]
          apply ih
          simp only [List.length_cons] at hl
          omega

theorem parenClean_removeParens (l : List Char) : parenClean (removeParens l) = true :=
  rpGo_parenClean l.length l (Nat.le_refl _)

theorem pyStripL_sublist (l : List Char) : List.Sublist (pyStripL l) l := by
  unfold pyStripL
  have h1 : List.Sublist (l.dropWhile isPySpace) l := List.dropWhile_sublist isPySpace
  have h2 : List.Sublist ((l.dropWhile isPySpace).reverse.dropWhile isPySpace)
      (l.dropWhile isPySpace).reverse := List.dropWhile_sublist isPySpace
  have h3 : List.Sublist ((l.dropWhile isPySpace).reverse.dropWhile isPySpace).reverse
      (l.dropWhile isPySpace) := by
    have := List.reverse_sublist.mpr h2
    simpa using this
  exact h3.trans h1

theorem rstripSD_sublist (l : List Char) : List.Sublist (rstripSD l) l := by
  unfold rstripSD
  have h2 : List.Sublist (l.reverse.dropWhile (fun c => c == ' ' || c == '–')) l.reverse :=
    List.dropWhile_sublist _
  have := List.reverse_sublist.mpr h2
  simpa using this

theorem mem_collapseWsAux :
    ∀ (l : List Char) (b : Bool) (x : Char), x ∈ collapseWsAux b l → x ∈ l ∨ x = ' ' := by
  intro l
  induction l with
  | nil => intro b x h; simp [collapseWsAux] at h
  | cons c rest ih =>
    intro b x h
    simp only [collapseWsAux] at h
    by_cases hs : isPySpace c = true
    · rw [if_pos hs] at h
      cases b with
      | true =>
        rcases ih true x h with hm | he
        · exact Or.inl (List.mem_cons_of_mem c hm)
        · exact Or.inr he
      | false =>
        rcases List.mem_cons.mp h with he | hm
        · exact Or.inr he
        · rcases ih true x hm with hm2 | he2
          · exact Or.inl (List.mem_cons_of_mem c hm2)
          · exact Or.inr he2
    · rw [if_neg hs] at h
      rcases List.mem_cons.mp h with he | hm
      · exact Or.inl (he ▸ List.mem_cons_self c rest)
      · rcases ih false x hm with hm2 | he2
        · exact Or.inl (List.mem_cons_of_mem c hm2)
        · exact Or.inr he2

theorem parenClean_collapseWsAux :
    ∀ (l : List Char) (b : Bool), parenClean l = true → parenClean (collapseWsAux b l) = true := by
  intro l
  induction l with
  | nil => intro b _; rfl
  | cons c rest ih =>
    intro b hpc
    simp only [collapseWsAux]
    by_cases hs : isPySpace c = true
    · have hc : c ≠ '(' := by
        intro h
        rw [h] at hs
        exact absurd hs (by decide)
      have hrest : parenClean rest = true := by
        rw [parenClean_cons, if_neg hc] at hpc
        exact hpc
      rw [if_pos hs]
      cases b with
      | true => exact ih true hrest
      | false =>
        show parenClean (' ' :: collapseWsAux true rest) = true
        rw [parenClean_cons, if_neg (by decide : (' ' : Char) ≠ '(')]
        exact ih true hrest
    · rw [if_neg hs]
      rw [parenClean_cons]
      by_cases hc : c = '('
      · rw [if_pos hc]
        rw [parenClean_cons, if_pos hc] at hpc
        simp only [Bool.not_eq_true'] at hpc ⊢
        apply containsFalseOfNotMem
        intro hm
        rcases mem_collapseWsAux rest false ')' hm with hm2 | he2
        · exact notMemOfContainsFalse _ _ hpc hm2
        · exact absurd he2 (by decide)
      · rw [if_neg hc]
        rw [parenClean_cons, if_neg hc] at hpc
        exact ih false hpc

theorem parenClean_collapseWs (l : List Char) (h : parenClean l = true) :
    parenClean (collapseWs l) = true :=
  parenClean_collapseWsAux l false h

theorem collapseWsAux_head_not_space :
    ∀ (l : List Char) (c : Char) (r : List Char),
      collapseWsAux true l = c :: r → isPySpace c = false := by
  intro l
  induction l with
  | nil => intro c r h; cases h
  | cons d rest ih =>
    intro c r h
    simp only [collapseWsAux] at h
    by_cases hs : isPySpace d = true
    · rw [if_pos hs] at h
      exact ih c r h
    · rw [if_neg hs] at h
      have := List.cons.inj h
      rw [← this.1]
      exact eq_false_of_ne_true hs

theorem wsCollapsed_collapseWsAux :
    ∀ (l : List Char) (b : Bool), wsCollapsed (collapseWsAux b l) = true := by
  intro l
  induction l with
  | nil => intro b; rfl
  | cons c rest ih =>
    intro b
    simp only [collapseWsAux]
    by_cases hs : isPySpace c = true
    · rw [if_pos hs]
      cases b with
      | true => exact ih true
      | false =>
        cases hX : collapseWsAux true rest with
        | nil => rfl
        | cons d r =>
          have hd : isPySpace d = false := collapseWsAux_head_not_space rest d r hX
          have hw : wsCollapsed (d :: r) = true := by rw [← hX]; exact ih true
          simp only [wsCollapsed, hd]
          simp [hw]
    · rw [if_neg hs]
      cases hX : collapseWsAux false rest with
      | nil =>
        simp only [wsCollapsed]
        simp [eq_false_of_ne_true hs]
      | cons d r =>
        have hw : wsCollapsed (d :: r) = true := by rw [← hX]; exact ih false
        simp only [wsCollapsed, eq_false_of_ne_true hs]
        simp [hw]

theorem wsCollapsed_collapseWs (l : List Char) : wsCollapsed (collapseWs l) = true :=
  wsCollapsed_collapseWsAux l false

/-- C7 (amended): the casteliano pipeline post-processes every emitted title:
no `( … )` annotation survives (no closing parenthesis after an opening one)
and every whitespace run is collapsed to a single space; the `generate.py`
pipeline emits the header title without this post-processing (see the
counterexample). -/
theorem claim7_amended :
    ∀ (block : String) (r : HymnRecord), parseC block = some r →
      parenClean r.title.data = true ∧ wsCollapsed r.title.data = true := by
  intro block r hp
  obtain ⟨i, n, t0, hf, hno, ht, hparts, hlyr⟩ := parseC_inv block r hp
  rw [ht]
  constructor
  · show parenClean (collapseWs (rstripSD (pyStripL
      (removeParens (contMerge (splitlinesS block) i t0).1.data)))) = true
    have h1 := parenClean_removeParens (contMerge (splitlinesS block) i t0).1.data
    have h2 := parenClean_of_sublist _ _ (pyStripL_sublist _) h1
    have h3 := parenClean_of_sublist _ _ (rstripSD_sublist _) h2
    exact parenClean_collapseWs _ h3
  · exact wsCollapsed_collapseWs _

/-- C7 witness: a concrete casteliano block with a parenthetical annotation
in its header; the emitted title is clean. -/
theorem claim7_witness :
    parenClean (HymnRecord.mk 6 "AB" "[Verse 1]\nx").title.data = true ∧
    wsCollapsed (HymnRecord.mk 6 "AB" "[Verse 1]\nx").title.data = true :=
  claim7_amended "6 A (bis) B\n\n1. x" ⟨6, "AB", "[Verse 1]\nx"⟩ (by decide)

end HymnTool
